import Mathlib

/-
Shallow embedding of node-cfg-watcher.

Source material:
- src/src/ConfigContentWatcher.ts : the reconciliation engine
  (ConfigContentWatcher.onInit with its update and remove pipelines,
  addOrUpdateSet, removeSet, getIndexOfId, validateConfigFile).
- src/unnamed/part_000 : the source drivers (ConfigWatcher, ConfigMapWatcher).

Modelling decisions:
- JavaScript objects keyed by strings and Map instances are both modelled as
  insertion-ordered association lists: overwriting keeps the position of the
  key, a fresh key is appended at the end, a deletion drops the entry.  This
  matches the JS spread idiom used by addOrUpdateSet and removeSet and the
  Map.set and Map.delete calls of the drivers.
- Deep structural equality of payload items (fast-deep-equal) is modelled as
  decidable equality on the payload type T.
- The YAML parser (js-yaml loadAll) and the jsonschema validator are external
  collaborators; they enter the model as parameters: a parse function
  returning none on a parse throw, and a boolean item validator.
- The rxjs pipelines of onInit are synchronous per event, so a whole run is a
  left fold of a single-event step over the event sequence; within one event
  all actions are computed against the state snapshot taken by withLatestFrom
  and then applied and emitted one by one by the tap operator.
-/

namespace CW

/-- Lookup in an insertion-ordered association list: the JS object read
state[id], and Map.get and hasOwnProperty of the drivers. -/
def alookup {α : Type} : List (String × α) → String → Option α
  | [], _ => none
  | p :: rest, k => if p.1 = k then some p.2 else alookup rest k

/-- Overwrite-or-append on an insertion-ordered association list: the JS
spread that writes key id of the state object, and Map.set. An existing key
keeps its position, a new key is appended. -/
def aset {α : Type} (k : String) (v : α) : List (String × α) → List (String × α)
  | [] => [(k, v)]
  | p :: rest => if p.1 = k then (k, v) :: rest else p :: aset k v rest

/-- ConfigSet from ConfigContentWatcher.ts: the filename an item currently
belongs to, paired with the item value. -/
structure ConfigSet (T : Type) where
  filename : String
  obj : T
  deriving DecidableEq

/-- The authoritative state owned by ConfigContentWatcher: a JS object
mapping item identity to ConfigSet. -/
abbrev St (T : Type) := List (String × ConfigSet T)

/-- The four action variants of ConfigSetAction in ConfigContentWatcher.ts. -/
inductive ConfigSetAction (T : Type) where
  | add (id : String) (item : ConfigSet T)
  | update (id : String) (item : ConfigSet T)
  | moved (id : String) (item : ConfigSet T)
  | remove (id : String)
  deriving DecidableEq

/-- The id field carried by every action variant. -/
def ConfigSetAction.id {T : Type} : ConfigSetAction T → String
  | .add i _ => i
  | .update i _ => i
  | .moved i _ => i
  | .remove i => i

/-- addOrUpdateSet of ConfigContentWatcher.ts.  A null argument returns null
and leaves the state alone; otherwise the entry keyed by getId of the stored
object is written (both branches of the source if write the same spread). -/
def addOrUpdateSet {T : Type} (gid : T → String) (cfgSet : Option (ConfigSet T))
    (s : St T) : Option (ConfigSet T) × St T :=
  match cfgSet with
  | none => (none, s)
  | some cs => (some cs, aset (gid cs.obj) cs s)

/-- removeSet of ConfigContentWatcher.ts.  A falsy id (the empty string)
returns undefined without touching the state; otherwise the destructuring
looks the id up and the state is replaced by the rest only when an entry was
found. -/
def removeSet {T : Type} (id : String) (s : St T) : Option (ConfigSet T) × St T :=
  if id = "" then (none, s)
  else
    match alookup s id with
    | none => (none, s)
    | some cs => (some cs, s.filter (fun p => decide (p.1 ≠ id)))

/-- Loop body of getIndexOfId, carrying the running index. -/
def getIndexOfIdAux {T : Type} (gid : T → String) (existingId : String) :
    List T → Int → Int
  | [], _ => -1
  | n :: rest, i => if gid n = existingId then i else getIndexOfIdAux gid existingId rest (i + 1)

/-- getIndexOfId of ConfigContentWatcher.ts: index of the first item of arr
whose identity equals existingId, or -1. -/
def getIndexOfId {T : Type} (gid : T → String) (existingId : String) (arr : List T) : Int :=
  getIndexOfIdAux gid existingId arr 0

/-- First loop of the update pipeline of onInit: for every state entry whose
filename matches the incoming file and whose identity no longer occurs in
the validated item list, push a remove action. -/
def removeVanished {T : Type} (gid : T → String) (s : St T) (F : String) (L : List T) :
    List (ConfigSetAction T) :=
  (s.filter (fun p => decide (p.2.filename = F))).filterMap
    (fun p =>
      if getIndexOfId gid (gid p.2.obj) L = -1 then some (.remove (gid p.2.obj)) else none)

/-- Identities removed by the first loop of the update pipeline: identities
of state entries filed under the incoming filename that no longer occur in
the validated item list. -/
def vanishedKeys {T : Type} (gid : T → String) (s : St T) (F : String) (L : List T) :
    List String :=
  (s.filter (fun p => decide (p.2.filename = F))).filterMap
    (fun p => if getIndexOfId gid (gid p.2.obj) L = -1 then some (gid p.2.obj) else none)

/-- Per-item branch of the second loop of the update pipeline of onInit,
evaluated against the state snapshot taken by withLatestFrom: an unknown
identity yields an add, a known identity with a structurally different value
yields an update, an unchanged value under a different filename yields a
moved action built from the existing set with the new filename, and an
unchanged value in the same file yields nothing. -/
def itemAction {T : Type} [DecidableEq T] (gid : T → String) (s : St T) (F : String)
    (n : T) : List (ConfigSetAction T) :=
  match alookup s (gid n) with
  | none => [.add (gid n) ⟨F, n⟩]
  | some existingSet =>
    if existingSet.obj = n then
      if existingSet.filename = F then []
      else [.moved (gid n) ⟨F, existingSet.obj⟩]
    else [.update (gid n) ⟨F, n⟩]

/-- Second loop of the update pipeline of onInit over the whole validated
item list. -/
def processItems {T : Type} [DecidableEq T] (gid : T → String) (s : St T) (F : String)
    (L : List T) : List (ConfigSetAction T) :=
  L.flatMap (itemAction gid s F)

/-- Action list produced by the update pipeline of onInit for one validated
file event: the remove loop followed by the per-item loop, both against the
same state snapshot. -/
def updateActions {T : Type} [DecidableEq T] (gid : T → String) (s : St T) (F : String)
    (L : List T) : List (ConfigSetAction T) :=
  removeVanished gid s F L ++ processItems gid s F L

/-- Action list produced by the remove pipeline of onInit: one remove action
per state entry whose filename matches the removed file. -/
def removeActions {T : Type} (gid : T → String) (s : St T) (F : String) :
    List (ConfigSetAction T) :=
  (s.filter (fun p => decide (p.2.filename = F))).map
    (fun p => ConfigSetAction.remove (gid p.2.obj))

/-- State mutation performed by the tap operator of onInit for one action:
add, update and moved all go through addOrUpdateSet on the carried item,
remove goes through removeSet on the carried id. -/
def applyAction {T : Type} (gid : T → String) (s : St T) (a : ConfigSetAction T) : St T :=
  match a with
  | .add _ item => (addOrUpdateSet gid (some item) s).2
  | .update _ item => (addOrUpdateSet gid (some item) s).2
  | .moved _ item => (addOrUpdateSet gid (some item) s).2
  | .remove i => (removeSet i s).2

/-- Sequential application of a list of committed actions. -/
def applyActions {T : Type} (gid : T → String) (s : St T) (acts : List (ConfigSetAction T)) :
    St T :=
  acts.foldl (applyAction gid) s

/-- A validated file event as seen by the reconciliation engine: either a
validated item list for a file (from an add or update notification) or a
file removal. -/
inductive VEvent (T : Type) where
  | upsert (filename : String) (data : List T)
  | remove (filename : String)
  deriving DecidableEq

/-- Item list carried by a validated event; empty for a removal. -/
def VEvent.listOf {T : Type} : VEvent T → List T
  | .upsert _ L => L
  | .remove _ => []

/-- One reconciliation step of onInit: compute the action list for the event
against the current state, then apply every action in order.  The emitted
action sequence is the first component. -/
def step {T : Type} [DecidableEq T] (gid : T → String) (s : St T) :
    VEvent T → List (ConfigSetAction T) × St T
  | .upsert F L =>
    let acts := updateActions gid s F L
    (acts, applyActions gid s acts)
  | .remove F =>
    let acts := removeActions gid s F
    (acts, applyActions gid s acts)

/-- Processing of a whole sequence of validated file events from the empty
initial state, returning the final state. -/
def run {T : Type} [DecidableEq T] (gid : T → String) (es : List (VEvent T)) : St T :=
  es.foldl (fun s e => (step gid s e).2) []

/-- Kinds of whole-file change notifications emitted by the drivers. -/
inductive FileChangeType where
  | add | update | remove
  deriving DecidableEq

/-- ConfigFileChange from the driver module: a whole-file change
notification. -/
structure ConfigFileChange where
  type : FileChangeType
  filename : String
  content : Option String
  deriving DecidableEq

/-- Outcome of validateConfigFile: either the ordered validated item list
for the file, or a single error carrying the filename. -/
inductive ValidationResult (T : Type) where
  | ok (filename : String) (data : List T)
  | err (filename : String)
  deriving DecidableEq

/-- Blank-content test of validateConfigFile: the source asks whether the
content trims to a falsy (empty) string, which holds exactly when every
character is whitespace. -/
def isBlank (c : String) : Bool :=
  c.data.all Char.isWhitespace

/-- validateConfigFile of ConfigContentWatcher.ts.  Null or whitespace-only
content yields an empty item list; a parser throw or any schema-invalid item
aborts the whole file with one error carrying the filename. -/
def validateConfigFile {T : Type} (parse : String → Option (List T)) (valid : T → Bool)
    (fc : ConfigFileChange) : ValidationResult T :=
  match fc.content with
  | none => .ok fc.filename []
  | some c =>
    if isBlank c then .ok fc.filename []
    else
      match parse c with
      | none => .err fc.filename
      | some data => if data.all valid then .ok fc.filename data else .err fc.filename

/-- Failure condition of the validation pipeline for a file change carrying
content: the content is not blank and either the parser throws or some
parsed item fails schema validation. -/
def validationFails {T : Type} (parse : String → Option (List T)) (valid : T → Bool)
    (fc : ConfigFileChange) : Prop :=
  ∃ c, fc.content = some c ∧ isBlank c = false ∧
    (parse c = none ∨ ∃ data, parse c = some data ∧ data.all valid = false)

/-- Full processing of one raw driver notification by onInit: remove events
skip validation and go to the remove pipeline; add and update events are
validated, an error is filtered out before reaching the reconciliation map,
a success goes to the update pipeline. -/
def processChange {T : Type} [DecidableEq T] (parse : String → Option (List T))
    (valid : T → Bool) (gid : T → String) (s : St T) (fc : ConfigFileChange) :
    List (ConfigSetAction T) × St T :=
  match fc.type with
  | .remove => step gid s (.remove fc.filename)
  | _ =>
    match validateConfigFile parse valid fc with
    | .err _ => ([], s)
    | .ok F data => step gid s (.upsert F data)

/-- Well-formedness of the state as maintained by the program: identities
are unique keys, and every entry is keyed by the identity of the object it
stores (addOrUpdateSet always writes under getId of the stored object). -/
def WF {T : Type} (gid : T → String) (s : St T) : Prop :=
  (s.map Prod.fst).Nodup ∧ ∀ p ∈ s, gid p.2.obj = p.1

/-- Last item of a list carrying the given identity, if any: the most
recently validated occurrence of that identity within one file event, since
the validation loop walks the parsed document list in order. -/
def lastWithId {T : Type} (gid : T → String) (k : String) : List T → Option T
  | [] => none
  | n :: rest =>
    match lastWithId gid k rest with
    | some m => some m
    | none => if gid n = k then some n else none

/-- Last validated item list currently on record for a file, across a
sequence of validated events: an upsert overwrites it, a removal clears it.
A file F currently declares identity k when declared es F yields a list
containing an item of identity k. -/
def declared {T : Type} (es : List (VEvent T)) (F : String) : Option (List T) :=
  es.foldl
    (fun acc e =>
      match e with
      | .upsert G L => if G = F then some L else acc
      | .remove G => if G = F then none else acc)
    none

/-- Filename and item of the most recent validated occurrence of identity k
across a sequence of validated events, later events and later in-list
occurrences taking precedence. -/
def lastValidated {T : Type} (gid : T → String) (es : List (VEvent T)) (k : String) :
    Option (String × T) :=
  es.foldl
    (fun acc e =>
      match e with
      | .upsert F L =>
        match lastWithId gid k L with
        | some n => some (F, n)
        | none => acc
      | .remove _ => acc)
    none

/-- Per-item dispatch transcribed from the wording of the specification, for
the refinement comparison against the implemented loop: absent identity
yields Add with the new pair, a not deep-equal stored item yields Update
overwriting the pair, a differing stored filename yields a Moved action
carrying the new pair, otherwise nothing. -/
def specItemActions {T : Type} [DecidableEq T] (gid : T → String) (s : St T) (F : String)
    (n : T) : List (ConfigSetAction T) :=
  match alookup s (gid n) with
  | none => [.add (gid n) ⟨F, n⟩]
  | some stored =>
    if stored.obj ≠ n then [.update (gid n) ⟨F, n⟩]
    else if stored.filename ≠ F then [.moved (gid n) ⟨F, n⟩]
    else []

/-- Per-item state effect transcribed from the wording of the specification:
insert on Add, overwrite on Update, overwrite only the filename on Moved,
and leave the state unchanged otherwise. -/
def specItemEffect {T : Type} [DecidableEq T] (gid : T → String) (s : St T) (F : String)
    (n : T) : St T :=
  match alookup s (gid n) with
  | none => aset (gid n) ⟨F, n⟩ s
  | some stored =>
    if stored.obj ≠ n then aset (gid n) ⟨F, n⟩ s
    else if stored.filename ≠ F then aset (gid n) ⟨F, stored.obj⟩ s
    else s

/-- Outcome of the per-item dispatch for one identity, as a function of the
snapshot entry and of a default used when the item is left untouched: the
value every later lookup of that identity returns after the item has been
processed. -/
def expectedItem {T : Type} [DecidableEq T] (gid : T → String) (s : St T) (F : String)
    (n : T) (dflt : Option (ConfigSet T)) : Option (ConfigSet T) :=
  match alookup s (gid n) with
  | none => some ⟨F, n⟩
  | some e =>
    if e.obj = n then (if e.filename = F then dflt else some ⟨F, e.obj⟩)
    else some ⟨F, n⟩

/-- Primitive operations performed by the tap operator of onInit, in order:
for each action the state mutation, then the emission on the change
stream. -/
inductive TapOp (T : Type) where
  | mutate (a : ConfigSetAction T)
  | emit (a : ConfigSetAction T)
  deriving DecidableEq

/-- Operation trace of the tap operator over a committed action list: every
action contributes its mutation immediately followed by its emission. -/
def tapTrace {T : Type} : List (ConfigSetAction T) → List (TapOp T)
  | [] => []
  | a :: rest => .mutate a :: .emit a :: tapTrace rest

/-- State reached after running the mutations of an operation trace;
emissions do not touch the state. -/
def runTrace {T : Type} (gid : T → String) (s : St T) : List (TapOp T) → St T
  | [] => s
  | .mutate a :: rest => runTrace gid (applyAction gid s a) rest
  | .emit _ :: rest => runTrace gid s rest

/-- Snapshot diff of one section of a ConfigMap resource against the file
store, following the ADDED and MODIFIED handler of ConfigMapWatcher: first
one add per unknown filename and one update per known filename with changed
content, writing the store as it goes; then one remove per store entry whose
filename is no longer a key of the section, deleting it. -/
def diffSection (store : List (String × String)) (sec : List (String × String)) :
    List ConfigFileChange × List (String × String) :=
  let phaseA : List ConfigFileChange × List (String × String) :=
    sec.foldl
      (fun (acc : List ConfigFileChange × List (String × String)) fc =>
        match alookup acc.2 fc.1 with
        | none => (acc.1 ++ [⟨.add, fc.1, some fc.2⟩], aset fc.1 fc.2 acc.2)
        | some old =>
          if old ≠ fc.2 then (acc.1 ++ [⟨.update, fc.1, some fc.2⟩], aset fc.1 fc.2 acc.2)
          else acc)
      ([], store)
  let removes :=
    (phaseA.2.filter (fun p => decide (alookup sec p.1 = none))).map
      (fun p => (⟨.remove, p.1, none⟩ : ConfigFileChange))
  let store2 := phaseA.2.filter (fun p => decide (alookup sec p.1 ≠ none))
  (phaseA.1 ++ removes, store2)

/-- ADDED and MODIFIED handler of ConfigMapWatcher.onInit: the data section
is diffed against the file store only when it is present and non-empty, then
the binaryData section (values decoded from base64 by an external decode
function) likewise.  The emitted file change list is the concatenation. -/
def onAddedModified (store : List (String × String))
    (data : Option (List (String × String)))
    (binaryData : Option (List (String × String)))
    (decode : String → String) : List ConfigFileChange × List (String × String) :=
  let r1 : List ConfigFileChange × List (String × String) :=
    match data with
    | some d => if d.isEmpty then ([], store) else diffSection store d
    | none => ([], store)
  let r2 : List ConfigFileChange × List (String × String) :=
    match binaryData with
    | some bd =>
      if bd.isEmpty then ([], r1.2)
      else diffSection r1.2 (bd.map (fun p => (p.1, decode p.2)))
    | none => ([], r1.2)
  (r1.1 ++ r2.1, r2.2)

/-! Lookup characterizations of the associative operations. -/

theorem alookup_aset {α : Type} (k k2 : String) (v : α) (s : List (String × α)) :
    alookup (aset k v s) k2 = if k = k2 then some v else alookup s k2 := by
  induction s with
  | nil => simp [aset, alookup]
  | cons p rest ih =>
    simp only [aset]
    by_cases hp : p.1 = k
    · simp only [if_pos hp, alookup]
      by_cases h : k = k2
      · simp [h]
      · have hp2 : ¬ p.1 = k2 := fun e => h (hp.symm.trans e)
        simp [h, hp2]
    · simp only [if_neg hp, alookup, ih]
      by_cases hq : p.1 = k2
      · have h : ¬ k = k2 := fun e => hp (hq.trans e.symm)
        simp [hq, h]
      · simp [hq]

theorem alookup_filter_ne {α : Type} (k k2 : String) (s : List (String × α)) :
    alookup (s.filter (fun p => decide (p.1 ≠ k))) k2 =
      if k = k2 then none else alookup s k2 := by
  induction s with
  | nil => simp [alookup]
  | cons p rest ih =>
    by_cases hp : p.1 = k
    · have hred : (p :: rest).filter (fun q => decide (q.1 ≠ k)) =
          rest.filter (fun q => decide (q.1 ≠ k)) := by
        rw [List.filter_cons]
        simp [hp]
      rw [hred, ih]
      by_cases h : k = k2
      · simp [h]
      · have hp2 : ¬ p.1 = k2 := fun e => h (hp.symm.trans e)
        simp [h, alookup, hp2]
    · have hred : (p :: rest).filter (fun q => decide (q.1 ≠ k)) =
          p :: rest.filter (fun q => decide (q.1 ≠ k)) := by
        rw [List.filter_cons]
        simp [hp]
      rw [hred]
      simp only [alookup, ih]
      by_cases hq : p.1 = k2
      · have h : ¬ k = k2 := fun e => hp (hq.trans e.symm)
        simp [hq, h]
      · simp [hq]

theorem alookup_none_iff {α : Type} (k : String) (s : List (String × α)) :
    alookup s k = none ↔ ∀ p ∈ s, p.1 ≠ k := by
  induction s with
  | nil => simp [alookup]
  | cons p rest ih =>
    simp only [alookup, List.mem_cons]
    by_cases hp : p.1 = k
    · rw [if_pos hp]
      constructor
      · intro h; exact absurd h (by simp)
      · intro hall; exact absurd hp (hall p (Or.inl rfl))
    · rw [if_neg hp, ih]
      constructor
      · intro hall q hq
        rcases hq with hq | hq
        · rw [hq]; exact hp
        · exact hall q hq
      · intro hall q hq
        exact hall q (Or.inr hq)

theorem alookup_mem {α : Type} {k : String} {v : α} {s : List (String × α)}
    (h : alookup s k = some v) : (k, v) ∈ s := by
  induction s with
  | nil => simp [alookup] at h
  | cons p rest ih =>
    simp only [alookup] at h
    by_cases hp : p.1 = k
    · rw [if_pos hp] at h
      injection h with h
      have hpv : p = (k, v) := by
        cases p
        simp_all
      exact List.mem_cons.mpr (Or.inl hpv.symm)
    · rw [if_neg hp] at h
      exact List.mem_cons_of_mem _ (ih h)

theorem mem_alookup {α : Type} {k : String} {v : α} {s : List (String × α)}
    (hnd : (s.map Prod.fst).Nodup) (h : (k, v) ∈ s) : alookup s k = some v := by
  induction s with
  | nil => simp at h
  | cons p rest ih =>
    simp only [List.map_cons, List.nodup_cons] at hnd
    rcases List.mem_cons.mp h with h1 | h1
    · simp [alookup, ← h1]
    · have hp : ¬ p.1 = k := by
        intro e
        exact hnd.1 (e ▸ (List.mem_map.mpr ⟨(k, v), h1, rfl⟩))
      simp [alookup, hp, ih hnd.2 h1]

theorem filter_eq_self_of_alookup_none {α : Type} {k : String} {s : List (String × α)}
    (h : alookup s k = none) : s.filter (fun p => decide (p.1 ≠ k)) = s := by
  rw [List.filter_eq_self]
  intro p hp
  simpa using (alookup_none_iff k s).mp h p hp

theorem removeSet_snd {T : Type} {id : String} (s : St T) (h : id ≠ "") :
    (removeSet id s).2 = s.filter (fun p => decide (p.1 ≠ id)) := by
  rw [removeSet, if_neg h]
  cases hv : alookup s id with
  | none => simpa using (filter_eq_self_of_alookup_none hv).symm
  | some cs => rfl

/-! Well-formedness of states and its preservation. -/

theorem mem_keys_aset {α : Type} (k k2 : String) (v : α) (s : List (String × α)) :
    k2 ∈ (aset k v s).map Prod.fst ↔ k2 = k ∨ k2 ∈ s.map Prod.fst := by
  induction s with
  | nil => simp [aset]
  | cons p rest ih =>
    simp only [aset]
    by_cases hp : p.1 = k
    · rw [if_pos hp]
      simp only [List.map_cons, List.mem_cons, hp]
      tauto
    · rw [if_neg hp]
      simp only [List.map_cons, List.mem_cons, ih]
      tauto

theorem nodup_keys_aset {α : Type} {k : String} {v : α} {s : List (String × α)}
    (hnd : (s.map Prod.fst).Nodup) : ((aset k v s).map Prod.fst).Nodup := by
  induction s with
  | nil => simp [aset]
  | cons p rest ih =>
    simp only [List.map_cons, List.nodup_cons] at hnd
    simp only [aset]
    by_cases hp : p.1 = k
    · rw [if_pos hp]
      simp only [List.map_cons, List.nodup_cons]
      exact ⟨hp ▸ hnd.1, hnd.2⟩
    · rw [if_neg hp]
      simp only [List.map_cons, List.nodup_cons]
      refine ⟨fun hmem => ?_, ih hnd.2⟩
      rcases (mem_keys_aset k p.1 v rest).mp hmem with h | h
      · exact hp h
      · exact hnd.1 h

theorem mem_aset {α : Type} {p : String × α} {k : String} {v : α} {s : List (String × α)}
    (h : p ∈ aset k v s) : p = (k, v) ∨ p ∈ s := by
  induction s with
  | nil => simpa [aset] using h
  | cons q rest ih =>
    simp only [aset] at h
    by_cases hq : q.1 = k
    · rw [if_pos hq] at h
      rcases List.mem_cons.mp h with h1 | h1
      · exact Or.inl h1
      · exact Or.inr (List.mem_cons_of_mem _ h1)
    · rw [if_neg hq] at h
      rcases List.mem_cons.mp h with h1 | h1
      · exact Or.inr (h1 ▸ List.mem_cons_self _ _)
      · rcases ih h1 with h2 | h2
        · exact Or.inl h2
        · exact Or.inr (List.mem_cons_of_mem _ h2)

theorem WF_aset {T : Type} {gid : T → String} {s : St T} {k : String} {v : ConfigSet T}
    (hwf : WF gid s) (hk : gid v.obj = k) : WF gid (aset k v s) := by
  refine ⟨nodup_keys_aset hwf.1, fun p hp => ?_⟩
  rcases mem_aset hp with h | h
  · rw [h]
    exact hk
  · exact hwf.2 p h

theorem WF_filter {T : Type} {gid : T → String} {s : St T} (f : String × ConfigSet T → Bool)
    (hwf : WF gid s) : WF gid (s.filter f) := by
  refine ⟨List.Nodup.sublist ((List.filter_sublist s).map Prod.fst) hwf.1,
    fun p hp => hwf.2 p (List.mem_of_mem_filter hp)⟩

theorem WF_applyAction {T : Type} {gid : T → String} {s : St T} (a : ConfigSetAction T)
    (hwf : WF gid s) : WF gid (applyAction gid s a) := by
  cases a with
  | add i item => exact WF_aset hwf rfl
  | update i item => exact WF_aset hwf rfl
  | moved i item => exact WF_aset hwf rfl
  | remove i =>
    show WF gid (removeSet i s).2
    rw [removeSet]
    by_cases h : i = ""
    · simpa [h] using hwf
    · rw [if_neg h]
      cases hv : alookup s i with
      | none => exact hwf
      | some cs => exact WF_filter _ hwf

theorem WF_applyActions {T : Type} {gid : T → String} {s : St T}
    (acts : List (ConfigSetAction T)) (hwf : WF gid s) :
    WF gid (applyActions gid s acts) := by
  induction acts generalizing s with
  | nil => exact hwf
  | cons a rest ih => exact ih (WF_applyAction a hwf)

theorem WF_step {T : Type} [DecidableEq T] {gid : T → String} {s : St T} (e : VEvent T)
    (hwf : WF gid s) : WF gid (step gid s e).2 := by
  cases e with
  | upsert F L => exact WF_applyActions _ hwf
  | remove F => exact WF_applyActions _ hwf

theorem WF_run {T : Type} [DecidableEq T] (gid : T → String) (es : List (VEvent T)) :
    WF gid (run gid es) := by
  have h : ∀ (s : St T), WF gid s →
      WF gid (es.foldl (fun s e => (step gid s e).2) s) := by
    induction es with
    | nil => exact fun s hs => hs
    | cons e rest ih => exact fun s hs => ih _ (WF_step e hs)
  exact h [] ⟨List.nodup_nil, by simp⟩

/-! The getIndexOfId and lastWithId search loops. -/

theorem getIndexOfIdAux_eq_neg1 {T : Type} (gid : T → String) (eid : String) (L : List T) :
    ∀ i : Int, 0 ≤ i → (getIndexOfIdAux gid eid L i = -1 ↔ ∀ n ∈ L, gid n ≠ eid) := by
  induction L with
  | nil => intro i hi; simp [getIndexOfIdAux]
  | cons n rest ih =>
    intro i hi
    simp only [getIndexOfIdAux, List.mem_cons]
    by_cases h : gid n = eid
    · rw [if_pos h]
      constructor
      · intro he
        omega
      · intro hall
        exact absurd h (hall n (Or.inl rfl))
    · rw [if_neg h]
      rw [ih (i + 1) (by omega)]
      constructor
      · intro hall m hm
        rcases hm with hm | hm
        · rw [hm]; exact h
        · exact hall m hm
      · intro hall m hm
        exact hall m (Or.inr hm)

theorem getIndexOfId_eq_neg1 {T : Type} (gid : T → String) (eid : String) (L : List T) :
    getIndexOfId gid eid L = -1 ↔ ∀ n ∈ L, gid n ≠ eid :=
  getIndexOfIdAux_eq_neg1 gid eid L 0 le_rfl

theorem lastWithId_eq_none_iff {T : Type} (gid : T → String) (k : String) (L : List T) :
    lastWithId gid k L = none ↔ ∀ n ∈ L, gid n ≠ k := by
  induction L with
  | nil => simp [lastWithId]
  | cons n rest ih =>
    simp only [lastWithId]
    cases hr : lastWithId gid k rest with
    | some m =>
      constructor
      · intro h; exact absurd h (by simp)
      · intro hall
        have h2 : ∀ x ∈ rest, gid x ≠ k := fun x hx => hall x (List.mem_cons_of_mem _ hx)
        rw [ih.mpr h2] at hr
        exact absurd hr (by simp)
    | none =>
      by_cases h : gid n = k
      · rw [if_pos h]
        constructor
        · intro he; exact absurd he (by simp)
        · intro hall; exact absurd h (hall n (List.mem_cons_self _ _))
      · rw [if_neg h]
        constructor
        · intro _ m hm
          rcases List.mem_cons.mp hm with hm | hm
          · rw [hm]; exact h
          · exact (ih.mp hr) m hm
        · intro _; rfl

theorem lastWithId_spec {T : Type} {gid : T → String} {k : String} {L : List T} {n : T}
    (h : lastWithId gid k L = some n) : gid n = k ∧ n ∈ L := by
  induction L with
  | nil => simp [lastWithId] at h
  | cons m rest ih =>
    simp only [lastWithId] at h
    cases hr : lastWithId gid k rest with
    | some m2 =>
      rw [hr] at h
      injection h with h
      rcases ih (h ▸ hr) with ⟨h1, h2⟩
      exact ⟨h1, List.mem_cons_of_mem _ h2⟩
    | none =>
      rw [hr] at h
      by_cases hg : gid m = k
      · rw [if_pos hg] at h
        injection h with h
        exact ⟨h ▸ hg, h ▸ List.mem_cons_self _ _⟩
      · rw [if_neg hg] at h
        exact absurd h (by simp)

theorem lastWithId_of_nodup {T : Type} {gid : T → String} {L : List T} {n : T}
    (hnd : (L.map gid).Nodup) (hmem : n ∈ L) : lastWithId gid (gid n) L = some n := by
  induction L with
  | nil => simp at hmem
  | cons m rest ih =>
    simp only [List.map_cons, List.nodup_cons] at hnd
    rcases List.mem_cons.mp hmem with h | h
    · have hr : lastWithId gid (gid n) rest = none := by
        rw [lastWithId_eq_none_iff]
        intro m2 hm2 he
        exact hnd.1 (h ▸ (he ▸ List.mem_map.mpr ⟨m2, hm2, rfl⟩))
      simp [lastWithId, hr, ← h]
    · have hr := ih hnd.2 h
      simp [lastWithId, hr]

/-! Applying committed action lists. -/

theorem alookup_of_mem {α : Type} {s : List (String × α)} {p : String × α}
    (hnd : (s.map Prod.fst).Nodup) (h : p ∈ s) : alookup s p.1 = some p.2 := by
  have h2 : (p.1, p.2) ∈ s := by rw [Prod.mk.eta]; exact h
  exact mem_alookup hnd h2

theorem alookup_filter {α : Type} {s : List (String × α)} (hnd : (s.map Prod.fst).Nodup)
    (f : String × α → Bool) (k : String) :
    alookup (s.filter f) k =
      match alookup s k with
      | none => none
      | some v => if f (k, v) then some v else none := by
  induction s with
  | nil => simp [alookup]
  | cons p rest ih =>
    simp only [List.map_cons, List.nodup_cons] at hnd
    by_cases hp : p.1 = k
    · have halo : alookup (p :: rest) k = some p.2 := by simp [alookup, hp]
      rw [halo]
      have hkp : (k, p.2) = p := by rw [← hp]
      by_cases hf : f p = true
      · have hred : (p :: rest).filter f = p :: rest.filter f := by
          rw [List.filter_cons]
          simp [hf]
        rw [hred]
        simp [alookup, hp, hkp, hf]
      · have hred : (p :: rest).filter f = rest.filter f := by
          rw [List.filter_cons]
          simp [hf]
        rw [hred]
        have hnone : alookup rest k = none := by
          rw [alookup_none_iff]
          intro q hq he
          exact hnd.1 (hp ▸ he ▸ List.mem_map.mpr ⟨q, hq, rfl⟩)
        rw [ih hnd.2, hnone]
        simp [hkp, hf]
    · have halo : alookup (p :: rest) k = alookup rest k := by simp [alookup, hp]
      rw [halo, ← ih hnd.2]
      by_cases hf : f p = true
      · have hred : (p :: rest).filter f = p :: rest.filter f := by
          rw [List.filter_cons]
          simp [hf]
        rw [hred]
        simp [alookup, hp]
      · have hred : (p :: rest).filter f = rest.filter f := by
          rw [List.filter_cons]
          simp [hf]
        rw [hred]

theorem applyActions_nil {T : Type} (gid : T → String) (s : St T) :
    applyActions gid s [] = s := rfl

theorem applyActions_cons {T : Type} (gid : T → String) (s : St T) (a : ConfigSetAction T)
    (rest : List (ConfigSetAction T)) :
    applyActions gid s (a :: rest) = applyActions gid (applyAction gid s a) rest := rfl

theorem applyActions_append {T : Type} (gid : T → String) (s : St T)
    (a b : List (ConfigSetAction T)) :
    applyActions gid s (a ++ b) = applyActions gid (applyActions gid s a) b :=
  List.foldl_append _ _ _ _

theorem applyActions_removes {T : Type} (gid : T → String) (ks : List String)
    (hks : ∀ k ∈ ks, k ≠ "") (s : St T) :
    applyActions gid s (ks.map ConfigSetAction.remove) =
      s.filter (fun p => decide (p.1 ∉ ks)) := by
  induction ks generalizing s with
  | nil =>
    have : ∀ p ∈ s, decide ((p : String × ConfigSet T).1 ∉ ([] : List String)) = true := by
      intro p _
      simp
    simp [applyActions, List.filter_eq_self.mpr this]
  | cons k rest ih =>
    have hk : k ≠ "" := hks k (List.mem_cons_self _ _)
    have hrest : ∀ k2 ∈ rest, k2 ≠ "" := fun k2 h2 => hks k2 (List.mem_cons_of_mem _ h2)
    calc applyActions gid s ((k :: rest).map ConfigSetAction.remove)
        = applyActions gid (removeSet k s).2 (rest.map ConfigSetAction.remove) := rfl
      _ = applyActions gid (s.filter (fun p => decide (p.1 ≠ k)))
            (rest.map ConfigSetAction.remove) := by rw [removeSet_snd s hk]
      _ = (s.filter (fun p => decide (p.1 ≠ k))).filter (fun p => decide (p.1 ∉ rest)) :=
            ih hrest _
      _ = s.filter (fun p => decide (p.1 ∉ k :: rest)) := by
            rw [List.filter_filter]
            apply List.filter_congr
            intro p hp
            by_cases h1 : p.1 = k <;> by_cases h2 : p.1 ∈ rest <;> simp [h1, h2]

/-! The first loop of the update pipeline: removing vanished identities. -/

theorem removeVanished_eq_map {T : Type} (gid : T → String) (s : St T) (F : String)
    (L : List T) :
    removeVanished gid s F L = (vanishedKeys gid s F L).map ConfigSetAction.remove := by
  rw [removeVanished, vanishedKeys, List.map_filterMap]
  congr 1
  funext p
  by_cases h : getIndexOfId gid (gid p.2.obj) L = -1 <;> simp [h]

theorem mem_vanishedKeys {T : Type} {gid : T → String} {s : St T} {F : String} {L : List T}
    {k : String} :
    k ∈ vanishedKeys gid s F L ↔
      ∃ p, p ∈ s ∧ p.2.filename = F ∧ gid p.2.obj = k ∧ ∀ n ∈ L, gid n ≠ k := by
  rw [vanishedKeys]
  simp only [List.mem_filterMap, List.mem_filter]
  constructor
  · rintro ⟨p, ⟨hps, hpF⟩, hif⟩
    by_cases h : getIndexOfId gid (gid p.2.obj) L = -1
    · rw [if_pos h] at hif
      injection hif with hif
      subst hif
      exact ⟨p, hps, by simpa using hpF, rfl, (getIndexOfId_eq_neg1 gid _ L).mp h⟩
    · rw [if_neg h] at hif
      exact absurd hif (by simp)
  · rintro ⟨p, hps, hpF, hk, hall⟩
    refine ⟨p, ⟨hps, by simp [hpF]⟩, ?_⟩
    have h : getIndexOfId gid (gid p.2.obj) L = -1 := by
      rw [getIndexOfId_eq_neg1, hk]
      exact hall
    rw [if_pos h, hk]

theorem mem_vanishedKeys_entry {T : Type} {gid : T → String} {s : St T} {F : String}
    {L : List T} {p : String × ConfigSet T} (hwf : WF gid s) (hps : p ∈ s) :
    p.1 ∈ vanishedKeys gid s F L ↔ (p.2.filename = F ∧ ∀ n ∈ L, gid n ≠ p.1) := by
  rw [mem_vanishedKeys]
  constructor
  · rintro ⟨q, hqs, hqF, hqk, hall⟩
    have hq1 : q.1 = p.1 := (hwf.2 q hqs).symm.trans hqk
    have h1 : alookup s q.1 = some q.2 := alookup_of_mem hwf.1 hqs
    have h2 : alookup s p.1 = some p.2 := alookup_of_mem hwf.1 hps
    rw [hq1, h2] at h1
    injection h1 with h1
    exact ⟨h1 ▸ hqF, hall⟩
  · rintro ⟨hF, hall⟩
    exact ⟨p, hps, hF, hwf.2 p hps, hall⟩

theorem applyActions_removeVanished {T : Type} [DecidableEq T] {gid : T → String}
    {s : St T} {F : String} {L : List T} (hwf : WF gid s) (hne : ∀ x, gid x ≠ "") :
    applyActions gid s (removeVanished gid s F L) =
      s.filter (fun p => decide (p.2.filename = F → ∃ n ∈ L, gid n = p.1)) := by
  rw [removeVanished_eq_map, applyActions_removes]
  · apply List.filter_congr
    intro p hp
    by_cases h : p.1 ∈ vanishedKeys gid s F L
    · rcases (mem_vanishedKeys_entry hwf hp).mp h with ⟨hF, hall⟩
      have himp : ¬ (p.2.filename = F → ∃ n ∈ L, gid n = p.1) := by
        intro himp
        rcases himp hF with ⟨n, hn, he⟩
        exact hall n hn he
      have hl : (decide (p.1 ∉ vanishedKeys gid s F L)) = false := by simp [h]
      have hr2 : (decide (p.2.filename = F → ∃ n ∈ L, gid n = p.1)) = false := by
        simp only [decide_eq_false_iff_not]
        exact himp
      rw [hl, hr2]
    · have himp : p.2.filename = F → ∃ n ∈ L, gid n = p.1 := by
        intro hF
        by_contra hno
        push_neg at hno
        exact h ((mem_vanishedKeys_entry hwf hp).mpr ⟨hF, hno⟩)
      have hl : (decide (p.1 ∉ vanishedKeys gid s F L)) = true := by simp [h]
      have hr2 : (decide (p.2.filename = F → ∃ n ∈ L, gid n = p.1)) = true := by
        simp only [decide_eq_true_eq]
        exact himp
      rw [hl, hr2]
  · intro k hk
    rcases mem_vanishedKeys.mp hk with ⟨p, _, _, hgid, _⟩
    rw [← hgid]
    exact hne _

/-! The second loop of the update pipeline: per-item actions. -/

theorem itemAction_alookup_other {T : Type} [DecidableEq T] {gid : T → String}
    (s s1 : St T) (F : String) (n : T) {k : String} (h : gid n ≠ k) :
    alookup (applyActions gid s1 (itemAction gid s F n)) k = alookup s1 k := by
  rw [itemAction]
  cases he : alookup s (gid n) with
  | none =>
    simp [applyActions_cons, applyActions_nil, applyAction, addOrUpdateSet, alookup_aset, h]
  | some e =>
    by_cases hobj : e.obj = n
    · by_cases hfn : e.filename = F
      · simp [hobj, hfn, applyActions_nil]
      · have h2 : gid e.obj ≠ k := by rw [hobj]; exact h
        simp [hobj, hfn, applyActions_cons, applyActions_nil, applyAction, addOrUpdateSet,
          alookup_aset, h2, h]
    · simp [hobj, applyActions_cons, applyActions_nil, applyAction, addOrUpdateSet,
        alookup_aset, h]

theorem alookup_processItems {T : Type} [DecidableEq T] {gid : T → String} (s : St T)
    (F : String) :
    ∀ (L : List T), (L.map gid).Nodup → ∀ (s1 : St T) (k : String),
      alookup (applyActions gid s1 (processItems gid s F L)) k =
        match lastWithId gid k L with
        | none => alookup s1 k
        | some n => expectedItem gid s F n (alookup s1 k) := by
  intro L
  induction L with
  | nil =>
    intro _ s1 k
    simp [processItems, applyActions, lastWithId]
  | cons n0 rest ih =>
    intro hnd s1 k
    simp only [List.map_cons, List.nodup_cons] at hnd
    have hsplit : processItems gid s F (n0 :: rest) =
        itemAction gid s F n0 ++ processItems gid s F rest := by
      simp [processItems]
    rw [hsplit, applyActions_append, ih hnd.2 _ k]
    cases hr : lastWithId gid k rest with
    | some m =>
      have hk : gid m = k := (lastWithId_spec hr).1
      have hmem : m ∈ rest := (lastWithId_spec hr).2
      have hn0 : gid n0 ≠ k := fun he =>
        hnd.1 (by rw [he, ← hk]; exact List.mem_map.mpr ⟨m, hmem, rfl⟩)
      have hcons : lastWithId gid k (n0 :: rest) = some m := by
        simp [lastWithId, hr]
      rw [hcons]
      show expectedItem gid s F m (alookup (applyActions gid s1 (itemAction gid s F n0)) k)
          = expectedItem gid s F m (alookup s1 k)
      rw [itemAction_alookup_other s s1 F n0 hn0]
    | none =>
      by_cases hn0 : gid n0 = k
      · have hcons : lastWithId gid k (n0 :: rest) = some n0 := by
          simp [lastWithId, hr, hn0]
        rw [hcons]
        show alookup (applyActions gid s1 (itemAction gid s F n0)) k
            = expectedItem gid s F n0 (alookup s1 k)
        subst hn0
        rw [itemAction, expectedItem]
        cases halo : alookup s (gid n0) with
        | none =>
          simp [applyActions_cons, applyActions_nil, applyAction, addOrUpdateSet, alookup_aset]
        | some e =>
          by_cases hobj : e.obj = n0
          · by_cases hfn : e.filename = F
            · simp [hobj, hfn, applyActions_nil]
            · simp [hobj, hfn, applyActions_cons, applyActions_nil, applyAction,
                addOrUpdateSet, alookup_aset]
          · simp [hobj, applyActions_cons, applyActions_nil, applyAction, addOrUpdateSet,
              alookup_aset]
      · have hcons : lastWithId gid k (n0 :: rest) = none := by
          simp [lastWithId, hr, hn0]
        rw [hcons]
        show alookup (applyActions gid s1 (itemAction gid s F n0)) k = alookup s1 k
        exact itemAction_alookup_other s s1 F n0 hn0

/-! Per-event state characterizations. -/

theorem alookup_step_upsert {T : Type} [DecidableEq T] {gid : T → String} {s : St T}
    {F : String} {L : List T} (hwf : WF gid s) (hne : ∀ x, gid x ≠ "")
    (hnd : (L.map gid).Nodup) (k : String) :
    alookup (step gid s (.upsert F L)).2 k =
      match lastWithId gid k L with
      | some n => some ⟨F, n⟩
      | none =>
        match alookup s k with
        | none => none
        | some e => if e.filename = F then none else some e := by
  show alookup (applyActions gid s (updateActions gid s F L)) k = _
  rw [updateActions, applyActions_append, applyActions_removeVanished hwf hne,
    alookup_processItems s F L hnd _ k]
  cases hl : lastWithId gid k L with
  | some n =>
    have hk : gid n = k := (lastWithId_spec hl).1
    have hmem : n ∈ L := (lastWithId_spec hl).2
    show expectedItem gid s F n
        (alookup (s.filter (fun p => decide (p.2.filename = F → ∃ n ∈ L, gid n = p.1))) k)
        = some ⟨F, n⟩
    rw [expectedItem, hk]
    cases halo : alookup s k with
    | none => rfl
    | some e =>
      by_cases hobj : e.obj = n
      · by_cases hfn : e.filename = F
        · have hkeep : (e.filename = F → ∃ n ∈ L, gid n = k) := fun _ => ⟨n, hmem, hk⟩
          have he : e = ⟨F, n⟩ := by
            cases e
            simp_all
          simp [hobj, hfn, alookup_filter hwf.1, halo, hkeep, he]
        · simp [hobj, hfn]
      · simp [hobj]
  | none =>
    have hall : ∀ n ∈ L, gid n ≠ k := (lastWithId_eq_none_iff _ _ _).mp hl
    show alookup (s.filter (fun p => decide (p.2.filename = F → ∃ n ∈ L, gid n = p.1))) k
        = _
    rw [alookup_filter hwf.1]
    cases halo : alookup s k with
    | none => rfl
    | some e =>
      by_cases hF : e.filename = F
      · simp [hF]
        exact hall
      · have hkeep : (e.filename = F → ∃ n ∈ L, gid n = k) := fun hc => absurd hc hF
        simp [hkeep, hF]

theorem step_remove_snd {T : Type} [DecidableEq T] {gid : T → String} {s : St T}
    {F : String} (hwf : WF gid s) (hne : ∀ x, gid x ≠ "") :
    (step gid s (.remove F)).2 = s.filter (fun p => decide (p.2.filename ≠ F)) := by
  show applyActions gid s (removeActions gid s F) = _
  have hmap : removeActions gid s F =
      ((s.filter (fun p => decide (p.2.filename = F))).map Prod.fst).map
        ConfigSetAction.remove := by
    rw [removeActions, List.map_map]
    apply List.map_congr_left
    intro p hp
    simp only [Function.comp]
    rw [hwf.2 p (List.mem_of_mem_filter hp)]
  rw [hmap, applyActions_removes]
  · apply List.filter_congr
    intro p hp
    by_cases hF : p.2.filename = F
    · have hmem : p.1 ∈ (s.filter (fun p => decide (p.2.filename = F))).map Prod.fst :=
        List.mem_map.mpr ⟨p, List.mem_filter.mpr ⟨hp, by simp [hF]⟩, rfl⟩
      simp [hmem, hF]
    · have hnm : p.1 ∉ (s.filter (fun p => decide (p.2.filename = F))).map Prod.fst := by
        intro hmem
        rcases List.mem_map.mp hmem with ⟨q, hq, hq1⟩
        have hqs := List.mem_of_mem_filter hq
        have hqF : q.2.filename = F := by simpa using (List.mem_filter.mp hq).2
        have h1 : alookup s q.1 = some q.2 := alookup_of_mem hwf.1 hqs
        have h2 : alookup s p.1 = some p.2 := alookup_of_mem hwf.1 hp
        rw [hq1, h2] at h1
        injection h1 with h1
        exact hF (h1 ▸ hqF)
      simp [hnm, hF]
  · intro k hk
    rcases List.mem_map.mp hk with ⟨p, hps, h1⟩
    rw [← h1, ← hwf.2 p (List.mem_of_mem_filter hps)]
    exact hne _

theorem alookup_step_remove {T : Type} [DecidableEq T] {gid : T → String} {s : St T}
    {F : String} (hwf : WF gid s) (hne : ∀ x, gid x ≠ "") (k : String) :
    alookup (step gid s (.remove F)).2 k =
      match alookup s k with
      | none => none
      | some e => if e.filename = F then none else some e := by
  rw [step_remove_snd hwf hne, alookup_filter hwf.1]
  cases alookup s k with
  | none => rfl
  | some e =>
    by_cases hF : e.filename = F <;> simp [hF]

/-! Histories of validated events. -/

theorem run_concat {T : Type} [DecidableEq T] (gid : T → String) (es : List (VEvent T))
    (e : VEvent T) : run gid (es ++ [e]) = (step gid (run gid es) e).2 := by
  simp [run, List.foldl_append]

theorem declared_concat_upsert {T : Type} (es : List (VEvent T)) (G F : String)
    (L : List T) :
    declared (es ++ [.upsert G L]) F = if G = F then some L else declared es F := by
  simp [declared, List.foldl_append]

theorem declared_concat_remove {T : Type} (es : List (VEvent T)) (G F : String) :
    declared (T := T) (es ++ [.remove G]) F = if G = F then none else declared es F := by
  simp [declared, List.foldl_append]

theorem lastValidated_concat_upsert {T : Type} (gid : T → String) (es : List (VEvent T))
    (k F : String) (L : List T) :
    lastValidated gid (es ++ [.upsert F L]) k =
      match lastWithId gid k L with
      | some n => some (F, n)
      | none => lastValidated gid es k := by
  simp [lastValidated, List.foldl_append]

theorem lastValidated_concat_remove {T : Type} (gid : T → String) (es : List (VEvent T))
    (k F : String) :
    lastValidated gid (es ++ [.remove F]) k = lastValidated gid es k := by
  simp [lastValidated, List.foldl_append]

/-- C1 (amended): after processing any sequence of validated file events in
which every item list carries pairwise-distinct identities and the identity
function never yields the empty string, every identity present in State maps
to the item most recently validated under that identity, the stored filename
is the file of that validation, and that file still currently declares the
identity with exactly that item. -/
theorem run_tracks_lastValidated {T : Type} [DecidableEq T] (gid : T → String)
    (hne : ∀ x, gid x ≠ "") :
    ∀ (es : List (VEvent T)),
      (∀ e ∈ es, ((VEvent.listOf e).map gid).Nodup) →
      ∀ k cs, alookup (run gid es) k = some cs →
        lastValidated gid es k = some (cs.filename, cs.obj) ∧
        ∃ L, declared es cs.filename = some L ∧ lastWithId gid k L = some cs.obj := by
  intro es
  induction es using List.reverseRecOn with
  | nil =>
    intro _ k cs h
    simp [run, alookup] at h
  | append_singleton es e ih =>
    intro hok k cs h
    have hok1 : ∀ e2 ∈ es, ((VEvent.listOf e2).map gid).Nodup :=
      fun e2 he2 => hok e2 (List.mem_append_left _ he2)
    have hoke : ((VEvent.listOf e).map gid).Nodup := hok e (by simp)
    have hwf : WF gid (run gid es) := WF_run gid es
    rw [run_concat] at h
    cases e with
    | upsert F L =>
      have hnd : (L.map gid).Nodup := hoke
      cases hl : lastWithId gid k L with
      | some n =>
        have h2 : alookup (step gid (run gid es) (.upsert F L)).2 k = some ⟨F, n⟩ := by
          rw [alookup_step_upsert hwf hne hnd k, hl]
        rw [h] at h2
        injection h2 with h2
        subst h2
        refine ⟨?_, L, ?_, ?_⟩
        · rw [lastValidated_concat_upsert, hl]
        · rw [declared_concat_upsert]
          simp
        · exact hl
      | none =>
        have h2 : alookup (step gid (run gid es) (.upsert F L)).2 k =
            match alookup (run gid es) k with
            | none => none
            | some e => if e.filename = F then none else some e := by
          rw [alookup_step_upsert hwf hne hnd k, hl]
        rw [h] at h2
        cases halo : alookup (run gid es) k with
        | none =>
          rw [halo] at h2
          exact absurd h2 (by simp)
        | some e =>
          rw [halo] at h2
          have h3 : some cs = if e.filename = F then none else some e := h2
          by_cases hF : e.filename = F
          · rw [if_pos hF] at h3
            exact absurd h3 (by simp)
          · rw [if_neg hF] at h3
            injection h3 with h3
            rw [h3]
            rcases ih hok1 k e halo with ⟨ih1, L0, ih2, ih3⟩
            refine ⟨?_, L0, ?_, ih3⟩
            · rw [lastValidated_concat_upsert, hl]
              exact ih1
            · rw [declared_concat_upsert, if_neg (fun he => hF he.symm)]
              exact ih2
    | remove F =>
      have h2 : alookup (step gid (run gid es) (.remove F)).2 k =
          match alookup (run gid es) k with
          | none => none
          | some e => if e.filename = F then none else some e :=
        alookup_step_remove hwf hne k
      rw [h] at h2
      cases halo : alookup (run gid es) k with
      | none =>
        rw [halo] at h2
        exact absurd h2 (by simp)
      | some e =>
        rw [halo] at h2
        have h3 : some cs = if e.filename = F then none else some e := h2
        by_cases hF : e.filename = F
        · rw [if_pos hF] at h3
          exact absurd h3 (by simp)
        · rw [if_neg hF] at h3
          injection h3 with h3
          rw [h3]
          rcases ih hok1 k e halo with ⟨ih1, L0, ih2, ih3⟩
          refine ⟨?_, L0, ?_, ih3⟩
          · rw [lastValidated_concat_remove]
            exact ih1
          · rw [declared_concat_remove, if_neg (fun he => hF he.symm)]
            exact ih2

/-- Closed instance of the amended C1 theorem: a single add event for one
item leaves the state holding exactly that last validated occurrence. -/
theorem run_tracks_lastValidated_witness :
    (∀ x : Nat, (fun _ : Nat => "a") x ≠ "") ∧
    (∀ e ∈ [VEvent.upsert "f" [(1 : Nat)]], ((VEvent.listOf e).map (fun _ : Nat => "a")).Nodup) ∧
    alookup (run (fun _ : Nat => "a") [VEvent.upsert "f" [(1 : Nat)]]) "a" = some ⟨"f", 1⟩ ∧
    (lastValidated (fun _ : Nat => "a") [VEvent.upsert "f" [(1 : Nat)]] "a" = some ("f", 1) ∧
      ∃ L, declared [VEvent.upsert "f" [(1 : Nat)]] "f" = some L ∧
        lastWithId (fun _ : Nat => "a") "a" L = some 1) :=
  ⟨fun x => show ("a" : String) ≠ "" by decide, by decide, by decide,
    run_tracks_lastValidated (fun _ : Nat => "a")
      (fun x => show ("a" : String) ≠ "" by decide)
      [VEvent.upsert "f" [(1 : Nat)]] (by decide) "a" ⟨"f", 1⟩ (by decide)⟩

/-- C1 as frozen fails when one validated list repeats an identity: after
re-delivering the list 1, 2 under the constant identity k for file f, the
state stores item 1 while the occurrence of identity k most recently walked
by the validation loop is item 2. -/
theorem run_tracks_lastValidated_counterexample :
    alookup (run (fun _ : Nat => "k") [.upsert "f" [1, 2], .upsert "f" [1, 2]]) "k" =
      some ⟨"f", 1⟩ ∧
    lastValidated (fun _ : Nat => "k") [.upsert "f" [1, 2], .upsert "f" [1, 2]] "k" =
      some ("f", 2) ∧
    ¬ (∀ (k : String) (cs : ConfigSet Nat),
        alookup (run (fun _ : Nat => "k") [.upsert "f" [1, 2], .upsert "f" [1, 2]]) k =
          some cs →
        lastValidated (fun _ : Nat => "k") [.upsert "f" [1, 2], .upsert "f" [1, 2]] k =
          some (cs.filename, cs.obj)) :=
  ⟨by decide, by decide,
    fun hcl => absurd (hcl "k" ⟨"f", 1⟩ (by decide)) (by decide)⟩

/-- Pointwise agreement of the implemented per-item dispatch with the
dispatch transcribed from the specification. -/
theorem itemAction_eq_spec {T : Type} [DecidableEq T] (gid : T → String) (s : St T)
    (F : String) (n : T) : itemAction gid s F n = specItemActions gid s F n := by
  rw [itemAction, specItemActions]
  cases alookup s (gid n) with
  | none => rfl
  | some e =>
    by_cases hobj : e.obj = n
    · by_cases hfn : e.filename = F
      · simp [hobj, hfn]
      · simp [hobj, hfn]
    · simp [hobj]

/-- C2: the update pipeline emits, for each item of the validated list, the
action demanded by the specification for the event-start snapshot (absent
identity: Add of the new pair; changed value: Update overwriting the pair;
unchanged value under a new filename: Moved carrying the new pair; otherwise
nothing), and applying the actions of one item effects exactly the insert,
overwrite, filename-only overwrite, or no-op that the specification
assigns to its case. -/
theorem update_dispatch_refines_spec {T : Type} [DecidableEq T] (gid : T → String)
    (s : St T) (F : String) (L : List T) (n : T) :
    updateActions gid s F L =
      removeVanished gid s F L ++ L.flatMap (specItemActions gid s F) ∧
    applyActions gid s (itemAction gid s F n) = specItemEffect gid s F n := by
  constructor
  · rw [updateActions]
    congr 1
    have h1 : ∀ L2 : List T, processItems gid s F L2 = L2.flatMap (specItemActions gid s F) := by
      intro L2
      induction L2 with
      | nil => rfl
      | cons m rest ih2 =>
        show itemAction gid s F m ++ processItems gid s F rest = _
        rw [itemAction_eq_spec, ih2]
        rfl
    exact h1 L
  · rw [itemAction, specItemEffect]
    cases alookup s (gid n) with
    | none => rfl
    | some e =>
      by_cases hobj : e.obj = n
      · by_cases hfn : e.filename = F
        · simp [hobj, hfn, applyActions_nil]
        · simp [hobj, hfn, applyActions_cons, applyActions_nil, applyAction, addOrUpdateSet]
      · simp [hobj, applyActions_cons, applyActions_nil, applyAction, addOrUpdateSet]

/-- C3: a file event carrying content that fails parsing or item validation
produces the single error result carrying the filename, and its processing
emits no action and leaves the state untouched. -/
theorem validation_failure_is_noop {T : Type} [DecidableEq T]
    (parse : String → Option (List T)) (valid : T → Bool) (gid : T → String)
    (fc : ConfigFileChange) (s : St T) (hty : fc.type ≠ FileChangeType.remove)
    (hfail : validationFails parse valid fc) :
    validateConfigFile parse valid fc = .err fc.filename ∧
    processChange parse valid gid s fc = ([], s) := by
  rcases hfail with ⟨c, hc, hblank, herr⟩
  have hval : validateConfigFile parse valid fc = .err fc.filename := by
    simp only [validateConfigFile, hc]
    rcases herr with hp | ⟨data, hpd, hvd⟩
    · simp [hblank, hp]
    · simp [hblank, hpd, hvd]
  refine ⟨hval, ?_⟩
  cases hft : fc.type with
  | remove => exact absurd hft hty
  | add => simp [processChange, hft, hval]
  | update => simp [processChange, hft, hval]

/-- Closed instance of the C3 theorem at a parser that throws. -/
theorem validation_failure_is_noop_witness :
    ((⟨.add, "f", some "x"⟩ : ConfigFileChange).type ≠ FileChangeType.remove) ∧
    validationFails (T := Nat) (fun _ => none) (fun _ => true) ⟨.add, "f", some "x"⟩ ∧
    (validateConfigFile (T := Nat) (fun _ => none) (fun _ => true) ⟨.add, "f", some "x"⟩ =
        .err "f" ∧
      processChange (T := Nat) (fun _ => none) (fun _ => true) (fun _ => "i") []
        ⟨.add, "f", some "x"⟩ = ([], [])) :=
  ⟨by decide, ⟨"x", rfl, by decide, Or.inl rfl⟩,
    validation_failure_is_noop (fun _ => none) (fun _ => true) (fun _ => "i")
      ⟨.add, "f", some "x"⟩ [] (by decide) ⟨"x", rfl, by decide, Or.inl rfl⟩⟩

/-- C4 (amended): a remove event for file F emits exactly one Remove per
tracked identity filed under F and, provided no tracked identity is the
empty string, deletes exactly those entries: no entry for F survives and
every entry for another file is kept unchanged. -/
theorem remove_event_complete {T : Type} [DecidableEq T] (gid : T → String) (s : St T)
    (F : String) (hwf : WF gid s) (hne : ∀ x, gid x ≠ "") :
    (step gid s (.remove F)).1 =
      (s.filter (fun p => decide (p.2.filename = F))).map
        (fun p => ConfigSetAction.remove p.1) ∧
    (step gid s (.remove F)).1.length =
      (s.filter (fun p => decide (p.2.filename = F))).length ∧
    (step gid s (.remove F)).2 = s.filter (fun p => decide (p.2.filename ≠ F)) ∧
    (∀ p ∈ (step gid s (.remove F)).2, p.2.filename ≠ F) ∧
    (∀ p ∈ s, p.2.filename ≠ F → p ∈ (step gid s (.remove F)).2) := by
  have hacts : (step gid s (.remove F)).1 =
      (s.filter (fun p => decide (p.2.filename = F))).map
        (fun p => ConfigSetAction.remove p.1) := by
    show removeActions gid s F = _
    rw [removeActions]
    apply List.map_congr_left
    intro p hp
    rw [hwf.2 p (List.mem_of_mem_filter hp)]
  have hs2 := step_remove_snd (F := F) hwf hne
  refine ⟨hacts, by rw [hacts, List.length_map], hs2, ?_, ?_⟩
  · intro p hp
    rw [hs2] at hp
    simpa using (List.mem_filter.mp hp).2
  · intro p hp hF
    rw [hs2]
    exact List.mem_filter.mpr ⟨hp, by simpa using hF⟩

/-- Closed instance of the amended C4 theorem at a one-entry state. -/
theorem remove_event_complete_witness :
    WF (fun _ : Nat => "w") [("w", ⟨"F", 3⟩)] ∧
    (∀ x : Nat, (fun _ : Nat => "w") x ≠ "") ∧
    (step (fun _ : Nat => "w") [("w", (⟨"F", 3⟩ : ConfigSet Nat))] (.remove "F")).1 =
      [ConfigSetAction.remove "w"] ∧
    (step (fun _ : Nat => "w") [("w", (⟨"F", 3⟩ : ConfigSet Nat))] (.remove "F")).2 =
      List.filter (fun p => decide (p.2.filename ≠ "F"))
        [("w", (⟨"F", 3⟩ : ConfigSet Nat))] :=
  ⟨⟨by decide, by decide⟩, fun x => show ("w" : String) ≠ "" by decide, by decide,
    (remove_event_complete (fun _ : Nat => "w") [("w", ⟨"F", 3⟩)] "F"
      ⟨by decide, by decide⟩ (fun x => show ("w" : String) ≠ "" by decide)).2.2.1⟩

/-- C4 as frozen fails when the tracked identity is the empty string: the
remove event emits one Remove action but removeSet treats the falsy id as a
no-op, so the entry filed under F survives. -/
theorem remove_event_complete_counterexample :
    (step (fun _ : Nat => "") [("", (⟨"F", 5⟩ : ConfigSet Nat))] (.remove "F")).1 =
      [ConfigSetAction.remove ""] ∧
    (step (fun _ : Nat => "") [("", (⟨"F", 5⟩ : ConfigSet Nat))] (.remove "F")).2 =
      [("", (⟨"F", 5⟩ : ConfigSet Nat))] ∧
    ¬ (∀ p ∈ (step (fun _ : Nat => "") [("", (⟨"F", 5⟩ : ConfigSet Nat))] (.remove "F")).2,
        p.2.filename ≠ "F") := by
  refine ⟨by decide, by decide, ?_⟩
  intro hall
  exact absurd rfl (hall ("", ⟨"F", 5⟩) (by decide))

/-- C5 (amended): for an identity X, nonempty as guaranteed by an identity
function that never yields the empty string, with fixed content x moved from
file A to file B: processing the B event first emits exactly one Moved
action for X and the later removal of A emits no action for X; processing
the removal of A first emits Remove X, after which the B event emits
Add X. -/
theorem move_determinism {T : Type} [DecidableEq T] (gid : T → String) (s : St T)
    (A B X : String) (x : T) (hwf : WF gid s) (hne : ∀ y, gid y ≠ "")
    (hid : gid x = X) (hAB : A ≠ B) (hX : alookup s X = some ⟨A, x⟩)
    (hB : ∀ p ∈ s, p.2.filename ≠ B) :
    (step gid s (.upsert B [x])).1 = [.moved X ⟨B, x⟩] ∧
    alookup (step gid s (.upsert B [x])).2 X = some ⟨B, x⟩ ∧
    (∀ a ∈ (step gid (step gid s (.upsert B [x])).2 (.remove A)).1,
      ConfigSetAction.id a ≠ X) ∧
    ConfigSetAction.remove X ∈ (step gid s (.remove A)).1 ∧
    alookup (step gid s (.remove A)).2 X = none ∧
    (step gid (step gid s (.remove A)).2 (.upsert B [x])).1 = [.add X ⟨B, x⟩] := by
  have hfB : s.filter (fun p => decide (p.2.filename = B)) = [] := by
    rw [List.filter_eq_nil_iff]
    intro p hp
    simp only [decide_eq_true_eq]
    exact hB p hp
  have hacts1 : updateActions gid s B [x] = [.moved X ⟨B, x⟩] := by
    have h1 : removeVanished gid s B [x] = [] := by
      rw [removeVanished, hfB]
      rfl
    have h2 : processItems gid s B [x] = [.moved X ⟨B, x⟩] := by
      show itemAction gid s B x ++ [] = _
      rw [List.append_nil]
      simp [itemAction, hid, hX, hAB]
    rw [updateActions, h1, h2]
    rfl
  have hwf1 : WF gid (step gid s (.upsert B [x])).2 := WF_step _ hwf
  have hs1 : (step gid s (.upsert B [x])).2 = applyActions gid s [.moved X ⟨B, x⟩] := by
    show applyActions gid s (updateActions gid s B [x]) = _
    rw [hacts1]
  have halo1 : alookup (step gid s (.upsert B [x])).2 X = some ⟨B, x⟩ := by
    rw [hs1]
    simp [applyActions_cons, applyActions_nil, applyAction, addOrUpdateSet, alookup_aset, hid]
  refine ⟨hacts1, halo1, ?_, ?_, ?_, ?_⟩
  · intro a ha
    have ha2 : a ∈ ((step gid s (.upsert B [x])).2.filter
        (fun p => decide (p.2.filename = A))).map
        (fun p => ConfigSetAction.remove (gid p.2.obj)) := ha
    rcases List.mem_map.mp ha2 with ⟨p, hp, hpa⟩
    have hps1 : p ∈ (step gid s (.upsert B [x])).2 := List.mem_of_mem_filter hp
    have hpF : p.2.filename = A := by simpa using (List.mem_filter.mp hp).2
    rw [← hpa]
    show gid p.2.obj ≠ X
    intro he
    have hk : gid p.2.obj = p.1 := hwf1.2 p hps1
    have halo : alookup (step gid s (.upsert B [x])).2 p.1 = some p.2 :=
      alookup_of_mem hwf1.1 hps1
    rw [← hk, he, halo1] at halo
    injection halo with halo
    rw [← halo] at hpF
    have hba : B = A := by simpa using hpF
    exact hAB hba.symm
  · have hmem : (X, (⟨A, x⟩ : ConfigSet T)) ∈ s := alookup_mem hX
    have hmm : ConfigSetAction.remove (T := T) X ∈
        (s.filter (fun p => decide (p.2.filename = A))).map
          (fun p => ConfigSetAction.remove (gid p.2.obj)) := by
      refine List.mem_map.mpr ⟨(X, ⟨A, x⟩), List.mem_filter.mpr ⟨hmem, by simp⟩, ?_⟩
      simp [hid]
    exact hmm
  · rw [alookup_step_remove hwf hne X, hX]
    simp
  · have halo2 : alookup (step gid s (.remove A)).2 X = none := by
      rw [alookup_step_remove hwf hne X, hX]
      simp
    have hs2 : (step gid s (.remove A)).2 =
        s.filter (fun p => decide (p.2.filename ≠ A)) := step_remove_snd (F := A) hwf hne
    have hfB2 : (step gid s (.remove A)).2.filter
        (fun p => decide (p.2.filename = B)) = [] := by
      rw [List.filter_eq_nil_iff]
      intro p hp
      simp only [decide_eq_true_eq]
      rw [hs2] at hp
      exact hB p (List.mem_of_mem_filter hp)
    have h1 : removeVanished gid (step gid s (.remove A)).2 B [x] = [] := by
      rw [removeVanished, hfB2]
      rfl
    have h2 : processItems gid (step gid s (.remove A)).2 B [x] = [.add X ⟨B, x⟩] := by
      show itemAction gid (step gid s (.remove A)).2 B x ++ [] = _
      rw [List.append_nil]
      simp [itemAction, hid, halo2]
    show updateActions gid (step gid s (.remove A)).2 B [x] = _
    rw [updateActions, h1, h2]
    rfl

/-- Closed instance of the amended C5 theorem: one tracked item under file A
that reappears unchanged in file B. -/
theorem move_determinism_witness :
    WF (fun _ : Nat => "X") [("X", ⟨"A", 7⟩)] ∧
    ("A" : String) ≠ "B" ∧
    (step (fun _ : Nat => "X") [("X", (⟨"A", 7⟩ : ConfigSet Nat))] (.upsert "B" [7])).1 =
      [ConfigSetAction.moved "X" ⟨"B", 7⟩] ∧
    ConfigSetAction.remove "X" ∈
      (step (fun _ : Nat => "X") [("X", (⟨"A", 7⟩ : ConfigSet Nat))] (.remove "A")).1 :=
  ⟨⟨by decide, by decide⟩, by decide,
    (move_determinism (fun _ : Nat => "X") [("X", ⟨"A", 7⟩)] "A" "B" "X" 7
      ⟨by decide, by decide⟩ (fun y => show ("X" : String) ≠ "" by decide) rfl (by decide)
      (by decide) (by decide)).1,
    (move_determinism (fun _ : Nat => "X") [("X", ⟨"A", 7⟩)] "A" "B" "X" 7
      ⟨by decide, by decide⟩ (fun y => show ("X" : String) ≠ "" by decide) rfl (by decide)
      (by decide) (by decide)).2.2.2.1⟩

/-- C5 as frozen fails for the empty-string identity: after the removal of
file A is processed first (which emits Remove but cannot delete the falsy
id), the B event finds the identity still tracked with unchanged value and
emits Moved instead of the Add the claim requires. -/
theorem move_determinism_counterexample :
    ConfigSetAction.remove "" ∈
      (step (fun _ : Nat => "") [("", (⟨"A", 1⟩ : ConfigSet Nat))] (.remove "A")).1 ∧
    (step (fun _ : Nat => "")
        (step (fun _ : Nat => "") [("", (⟨"A", 1⟩ : ConfigSet Nat))] (.remove "A")).2
        (.upsert "B" [1])).1 = [ConfigSetAction.moved "" ⟨"B", 1⟩] ∧
    ConfigSetAction.add "" (⟨"B", (1 : Nat)⟩ : ConfigSet Nat) ∉
      (step (fun _ : Nat => "")
        (step (fun _ : Nat => "") [("", (⟨"A", 1⟩ : ConfigSet Nat))] (.remove "A")).2
        (.upsert "B" [1])).1 :=
  ⟨by decide, by decide, by decide⟩

/-- Re-processing an unchanged validated item list with distinct nonempty
identities right after it has been processed produces no action and no state
change. -/
theorem upsert_idem {T : Type} [DecidableEq T] {gid : T → String} {s : St T} {F : String}
    {L : List T} (hwf : WF gid s) (hne : ∀ x, gid x ≠ "") (hnd : (L.map gid).Nodup) :
    step gid (step gid s (.upsert F L)).2 (.upsert F L) =
      ([], (step gid s (.upsert F L)).2) := by
  have hwf1 : WF gid (step gid s (.upsert F L)).2 := WF_step _ hwf
  have hrv : removeVanished gid (step gid s (.upsert F L)).2 F L = [] := by
    rw [removeVanished, List.filterMap_eq_nil_iff]
    intro p hp
    have hpF : p.2.filename = F := by simpa using (List.mem_filter.mp hp).2
    have hps : p ∈ (step gid s (.upsert F L)).2 := List.mem_of_mem_filter hp
    have halo : alookup (step gid s (.upsert F L)).2 p.1 = some p.2 :=
      alookup_of_mem hwf1.1 hps
    rw [alookup_step_upsert hwf hne hnd p.1] at halo
    cases hl : lastWithId gid p.1 L with
    | some n =>
      rw [hl] at halo
      have h3 : some (⟨F, n⟩ : ConfigSet T) = some p.2 := halo
      injection h3 with h3
      have hmem : n ∈ L := (lastWithId_spec hl).2
      have hni : ¬ (getIndexOfId gid (gid p.2.obj) L = -1) := by
        rw [getIndexOfId_eq_neg1]
        intro hall
        exact hall n hmem (by rw [← h3])
      exact if_neg hni
    | none =>
      rw [hl] at halo
      have h3 : (match alookup s p.1 with
          | none => none
          | some e => if e.filename = F then none else some e) = some p.2 := halo
      cases halo2 : alookup s p.1 with
      | none =>
        rw [halo2] at h3
        exact absurd h3 (by simp)
      | some e =>
        rw [halo2] at h3
        have h4 : (if e.filename = F then none else some e) = some p.2 := h3
        by_cases hF : e.filename = F
        · rw [if_pos hF] at h4
          exact absurd h4 (by simp)
        · rw [if_neg hF] at h4
          injection h4 with h4
          rw [← h4] at hpF
          exact absurd hpF hF
  have hpi : processItems gid (step gid s (.upsert F L)).2 F L = [] := by
    rw [processItems, List.flatMap_eq_nil_iff]
    intro n hn
    have halo : alookup (step gid s (.upsert F L)).2 (gid n) = some ⟨F, n⟩ := by
      rw [alookup_step_upsert hwf hne hnd (gid n), lastWithId_of_nodup hnd hn]
    simp [itemAction, halo]
  have hacts : updateActions gid (step gid s (.upsert F L)).2 F L = [] := by
    rw [updateActions, hrv, hpi]
    rfl
  show (updateActions gid (step gid s (.upsert F L)).2 F L,
      applyActions gid (step gid s (.upsert F L)).2
        (updateActions gid (step gid s (.upsert F L)).2 F L)) = _
  rw [hacts]
  rfl

/-- C6 (amended): re-delivering an add or update notification whose content
validates to the same item list as the last processed one, provided the list
carries pairwise-distinct identities and the identity function never yields
the empty string, emits zero actions and leaves every state entry unchanged.
-/
theorem redelivery_idempotent {T : Type} [DecidableEq T]
    (parse : String → Option (List T)) (valid : T → Bool) (gid : T → String) (s : St T)
    (fc : ConfigFileChange) (F : String) (L : List T) (hwf : WF gid s)
    (hne : ∀ x, gid x ≠ "") (hty : fc.type ≠ FileChangeType.remove)
    (hv : validateConfigFile parse valid fc = .ok F L) (hnd : (L.map gid).Nodup) :
    processChange parse valid gid (processChange parse valid gid s fc).2 fc =
      ([], (processChange parse valid gid s fc).2) := by
  have hpc : ∀ s2 : St T, processChange parse valid gid s2 fc = step gid s2 (.upsert F L) := by
    intro s2
    cases hft : fc.type with
    | remove => exact absurd hft hty
    | add => simp [processChange, hft, hv]
    | update => simp [processChange, hft, hv]
  rw [hpc, hpc]
  exact upsert_idem hwf hne hnd

/-- Closed instance of the amended C6 theorem: re-delivering an update whose
content still parses to the single item 5 is a no-op the second time. -/
theorem redelivery_idempotent_witness :
    validateConfigFile (T := Nat) (fun _ => some [5]) (fun _ => true)
      ⟨.update, "f", some "c"⟩ = .ok "f" [5] ∧
    processChange (fun _ => some [5]) (fun _ => true) (fun _ : Nat => "a")
        (processChange (fun _ => some [5]) (fun _ => true) (fun _ : Nat => "a") []
          ⟨.update, "f", some "c"⟩).2 ⟨.update, "f", some "c"⟩ =
      ([], (processChange (fun _ => some [5]) (fun _ => true) (fun _ : Nat => "a") []
          ⟨.update, "f", some "c"⟩).2) :=
  ⟨by decide,
    redelivery_idempotent (fun _ => some [5]) (fun _ => true) (fun _ : Nat => "a") []
      ⟨.update, "f", some "c"⟩ "f" [5] ⟨by decide, by decide⟩
      (fun x => show ("a" : String) ≠ "" by decide) (by decide) (by decide) (by decide)⟩

/-- C6 as frozen fails when the validated list repeats an identity: the
event parsing to items 1, 2 under the constant identity k leaves the state
holding item 2, and re-delivering the very same event emits an Update and
flips the stored item to 1. -/
theorem redelivery_idempotent_counterexample :
    (processChange (fun _ => some [1, 2]) (fun _ => true) (fun _ : Nat => "k") []
        ⟨.update, "f", some "c"⟩).2 = [("k", ⟨"f", 2⟩)] ∧
    processChange (fun _ => some [1, 2]) (fun _ => true) (fun _ : Nat => "k")
        [("k", ⟨"f", 2⟩)] ⟨.update, "f", some "c"⟩ =
      ([ConfigSetAction.update "k" ⟨"f", 1⟩], [("k", ⟨"f", 1⟩)]) :=
  ⟨by decide, by decide⟩

/-- Every action produced by the per-item dispatch for one item carries the
identity of that item. -/
theorem itemAction_id {T : Type} [DecidableEq T] (gid : T → String) (s : St T)
    (F : String) (n : T) : ∀ a ∈ itemAction gid s F n, ConfigSetAction.id a = gid n := by
  simp only [itemAction]
  cases alookup s (gid n) with
  | none => simp [ConfigSetAction.id]
  | some e =>
    by_cases hobj : e.obj = n
    · by_cases hfn : e.filename = F <;> simp [hobj, hfn, ConfigSetAction.id]
    · simp [hobj, ConfigSetAction.id]

/-- The per-item dispatch emits at most one action. -/
theorem itemAction_length {T : Type} [DecidableEq T] (gid : T → String) (s : St T)
    (F : String) (n : T) : (itemAction gid s F n).length ≤ 1 := by
  simp only [itemAction]
  cases alookup s (gid n) with
  | none => simp
  | some e =>
    by_cases hobj : e.obj = n
    · by_cases hfn : e.filename = F <;> simp [hobj, hfn]
    · simp [hobj]

/-- Every action of the second loop carries the identity of some list item. -/
theorem processItems_id {T : Type} [DecidableEq T] (gid : T → String) (s : St T)
    (F : String) (L : List T) :
    ∀ a ∈ processItems gid s F L, ∃ n ∈ L, ConfigSetAction.id a = gid n := by
  intro a ha
  rcases List.mem_flatMap.mp ha with ⟨n, hn, han⟩
  exact ⟨n, hn, itemAction_id gid s F n a han⟩

/-- Under pairwise-distinct list identities, the second loop emits at most
one action per identity. -/
theorem countP_le_one_processItems {T : Type} [DecidableEq T] (gid : T → String)
    (s : St T) (F : String) (k : String) :
    ∀ L : List T, (L.map gid).Nodup →
      (processItems gid s F L).countP (fun a => decide (ConfigSetAction.id a = k)) ≤ 1 := by
  intro L
  induction L with
  | nil =>
    intro _
    simp [processItems]
  | cons n0 rest ih =>
    intro hnd
    simp only [List.map_cons, List.nodup_cons] at hnd
    have hsplit : processItems gid s F (n0 :: rest) =
        itemAction gid s F n0 ++ processItems gid s F rest := by
      simp [processItems]
    rw [hsplit, List.countP_append]
    by_cases hk : gid n0 = k
    · have hrest : (processItems gid s F rest).countP
          (fun a => decide (ConfigSetAction.id a = k)) = 0 := by
        rw [List.countP_eq_zero]
        intro a ha
        rcases processItems_id gid s F rest a ha with ⟨n, hn, hidn⟩
        simp only [decide_eq_true_eq]
        intro he
        exact hnd.1 (by rw [hk, ← he, hidn]; exact List.mem_map.mpr ⟨n, hn, rfl⟩)
      have hhead : (itemAction gid s F n0).countP
          (fun a => decide (ConfigSetAction.id a = k)) ≤ 1 :=
        le_trans (List.countP_le_length _) (itemAction_length gid s F n0)
      omega
    · have hhead : (itemAction gid s F n0).countP
          (fun a => decide (ConfigSetAction.id a = k)) = 0 := by
        rw [List.countP_eq_zero]
        intro a ha
        simp only [decide_eq_true_eq]
        rw [itemAction_id gid s F n0 a ha]
        exact hk
      have hrest := ih hnd.2
      omega

/-- The identities pushed by the first loop are pairwise distinct, as they
come from distinct state keys. -/
theorem vanished_aux_nodup {T : Type} (gid : T → String) (L : List T) :
    ∀ l : List (String × ConfigSet T), (l.map Prod.fst).Nodup →
      (∀ p ∈ l, gid p.2.obj = p.1) →
      ((l.filterMap (fun p =>
          if getIndexOfId gid (gid p.2.obj) L = -1 then some (gid p.2.obj) else none)).Nodup ∧
        ∀ k2 ∈ l.filterMap (fun p =>
          if getIndexOfId gid (gid p.2.obj) L = -1 then some (gid p.2.obj) else none),
          k2 ∈ l.map Prod.fst) := by
  intro l
  induction l with
  | nil =>
    intro _ _
    simp
  | cons p rest ih =>
    intro hnd hkeys
    simp only [List.map_cons, List.nodup_cons] at hnd
    have hrest := ih hnd.2 (fun q hq => hkeys q (List.mem_cons_of_mem _ hq))
    have hp1 : gid p.2.obj = p.1 := hkeys p (List.mem_cons_self _ _)
    by_cases hc : getIndexOfId gid (gid p.2.obj) L = -1
    · have hred : (p :: rest).filterMap (fun q =>
          if getIndexOfId gid (gid q.2.obj) L = -1 then some (gid q.2.obj) else none) =
          gid p.2.obj :: rest.filterMap (fun q =>
            if getIndexOfId gid (gid q.2.obj) L = -1 then some (gid q.2.obj) else none) := by
        rw [List.filterMap_cons, if_pos hc]
      rw [hred]
      constructor
      · rw [List.nodup_cons]
        refine ⟨fun hmem => ?_, hrest.1⟩
        have h2 := hrest.2 _ hmem
        rw [hp1] at h2
        exact hnd.1 h2
      · intro k2 hk2
        rcases List.mem_cons.mp hk2 with h | h
        · rw [List.map_cons]
          exact List.mem_cons.mpr (Or.inl (h.trans hp1))
        · rw [List.map_cons]
          exact List.mem_cons.mpr (Or.inr (hrest.2 _ h))
    · have hred : (p :: rest).filterMap (fun q =>
          if getIndexOfId gid (gid q.2.obj) L = -1 then some (gid q.2.obj) else none) =
          rest.filterMap (fun q =>
            if getIndexOfId gid (gid q.2.obj) L = -1 then some (gid q.2.obj) else none) := by
        rw [List.filterMap_cons, if_neg hc]
      rw [hred]
      exact ⟨hrest.1, fun k2 hk2 => List.mem_cons_of_mem _ (hrest.2 _ hk2)⟩

/-- Distinctness of the vanished identities of a well-formed state. -/
theorem vanishedKeys_nodup {T : Type} {gid : T → String} {s : St T} {F : String}
    {L : List T} (hwf : WF gid s) : (vanishedKeys gid s F L).Nodup :=
  (vanished_aux_nodup gid L (s.filter (fun p => decide (p.2.filename = F)))
    (List.Nodup.sublist ((List.filter_sublist s).map Prod.fst) hwf.1)
    (fun p hp => hwf.2 p (List.mem_of_mem_filter hp))).1

/-- Occurrences of a key in a duplicate-free key list number at most one. -/
theorem countP_eq_key_le_one {ks : List String} (h : ks.Nodup) (k : String) :
    ks.countP (fun k2 => decide (k2 = k)) ≤ 1 := by
  induction ks with
  | nil => simp
  | cons a rest ih =>
    rw [List.countP_cons]
    simp only [List.nodup_cons] at h
    by_cases ha : a = k
    · have hz : rest.countP (fun k2 => decide (k2 = k)) = 0 := by
        rw [List.countP_eq_zero]
        intro q hq
        simp only [decide_eq_true_eq]
        intro he
        exact h.1 ((ha.trans he.symm) ▸ hq)
      simp [hz, ha]
    · simp [ha, ih h.2]

/-- C7 (amended): for a validated item list with pairwise-distinct
identities, one file event emits at most one action per identity. -/
theorem at_most_one_action_per_id {T : Type} [DecidableEq T] (gid : T → String)
    (s : St T) (F : String) (L : List T) (k : String) (hwf : WF gid s)
    (hnd : (L.map gid).Nodup) :
    (updateActions gid s F L).countP (fun a => decide (ConfigSetAction.id a = k)) ≤ 1 := by
  rw [updateActions, List.countP_append]
  by_cases hk : ∃ n ∈ L, gid n = k
  · have hrv : (removeVanished gid s F L).countP
        (fun a => decide (ConfigSetAction.id a = k)) = 0 := by
      rw [List.countP_eq_zero]
      intro a ha
      rw [removeVanished_eq_map] at ha
      rcases List.mem_map.mp ha with ⟨k2, hk2, hka⟩
      rcases mem_vanishedKeys.mp hk2 with ⟨p, hps, hpF, hpk, hall⟩
      simp only [decide_eq_true_eq]
      rw [← hka]
      show ¬ k2 = k
      intro he
      rcases hk with ⟨n, hn, hgn⟩
      exact hall n hn (by rw [hgn, ← he])
    have hpi := countP_le_one_processItems gid s F k L hnd
    omega
  · push_neg at hk
    have hpi : (processItems gid s F L).countP
        (fun a => decide (ConfigSetAction.id a = k)) = 0 := by
      rw [List.countP_eq_zero]
      intro a ha
      rcases processItems_id gid s F L a ha with ⟨n, hn, hid⟩
      simp only [decide_eq_true_eq]
      rw [hid]
      exact hk n hn
    have hrv : (removeVanished gid s F L).countP
        (fun a => decide (ConfigSetAction.id a = k)) ≤ 1 := by
      rw [removeVanished_eq_map, List.countP_map]
      exact countP_eq_key_le_one (vanishedKeys_nodup hwf) k
    omega

/-- Closed instance of the amended C7 theorem: a singleton list produces one
action for its identity. -/
theorem at_most_one_action_per_id_witness :
    WF (fun _ : Nat => "x") ([] : St Nat) ∧
    ([(1 : Nat)].map (fun _ : Nat => "x")).Nodup ∧
    (updateActions (fun _ : Nat => "x") ([] : St Nat) "f" [1]).countP
      (fun a => decide (ConfigSetAction.id a = "x")) ≤ 1 :=
  ⟨⟨by decide, by decide⟩, by decide,
    at_most_one_action_per_id (fun _ : Nat => "x") [] "f" [1] "x"
      ⟨by decide, by decide⟩ (by decide)⟩

/-- C7 as frozen fails when one list repeats an identity: two items with the
constant identity x both miss the empty snapshot and two Add actions for x
are emitted within one event. -/
theorem at_most_one_action_per_id_counterexample :
    (updateActions (fun _ : Nat => "x") ([] : St Nat) "f" [1, 2]) =
      [ConfigSetAction.add "x" ⟨"f", 1⟩, ConfigSetAction.add "x" ⟨"f", 2⟩] ∧
    ¬ ((updateActions (fun _ : Nat => "x") ([] : St Nat) "f" [1, 2]).countP
        (fun a => decide (ConfigSetAction.id a = "x")) ≤ 1) :=
  ⟨by decide, by decide⟩

/-- Running the mutations of the tap trace reaches exactly the state that
the committed action list produces. -/
theorem runTrace_tapTrace {T : Type} (gid : T → String) :
    ∀ (acts : List (ConfigSetAction T)) (s : St T),
      runTrace gid s (tapTrace acts) = applyActions gid s acts := by
  intro acts
  induction acts with
  | nil => intro s; rfl
  | cons a rest ih =>
    intro s
    show runTrace gid (applyAction gid s a) (tapTrace rest) = _
    rw [ih, applyActions_cons]

/-- Every emission in the tap trace is immediately preceded by the mutation
of the same action. -/
theorem tapTrace_emit_decomp {T : Type} :
    ∀ (acts : List (ConfigSetAction T)) (pre post : List (TapOp T)) (a : ConfigSetAction T),
      tapTrace acts = pre ++ TapOp.emit a :: post →
      pre.getLast? = some (TapOp.mutate a) := by
  intro acts
  induction acts with
  | nil =>
    intro pre post a h
    cases pre <;> simp [tapTrace] at h
  | cons b rest ih =>
    intro pre post a h
    cases pre with
    | nil => simp [tapTrace] at h
    | cons p1 pre1 =>
      rw [List.cons_append] at h
      rw [tapTrace] at h
      injection h with h1 h2
      cases pre1 with
      | nil =>
        rw [List.nil_append] at h2
        injection h2 with h3 h4
        injection h3 with h3
        simp [← h1, h3]
      | cons p2 pre2 =>
        rw [List.cons_append] at h2
        injection h2 with h21 h22
        have hlast := ih pre2 post a h22
        cases pre2 with
        | nil => simp at hlast
        | cons q qrest =>
          rw [List.getLast?_cons_cons, List.getLast?_cons_cons]
          exact hlast

/-- Every mutation in the tap trace is immediately followed by the emission
of the same action. -/
theorem tapTrace_mutate_decomp {T : Type} :
    ∀ (acts : List (ConfigSetAction T)) (pre post : List (TapOp T)) (a : ConfigSetAction T),
      tapTrace acts = pre ++ TapOp.mutate a :: post →
      post.head? = some (TapOp.emit a) := by
  intro acts
  induction acts with
  | nil =>
    intro pre post a h
    cases pre <;> simp [tapTrace] at h
  | cons b rest ih =>
    intro pre post a h
    cases pre with
    | nil =>
      rw [List.nil_append] at h
      rw [tapTrace] at h
      injection h with h1 h2
      injection h1 with h1
      rw [← h2, ← h1]
      rfl
    | cons p1 pre1 =>
      rw [List.cons_append] at h
      rw [tapTrace] at h
      injection h with h1 h2
      cases pre1 with
      | nil =>
        rw [List.nil_append] at h2
        injection h2 with h3 h4
        exact absurd h3 (by simp)
      | cons p2 pre2 =>
        rw [List.cons_append] at h2
        injection h2 with h21 h22
        exact ih pre2 post a h22

/-- C8: in the operation trace of the tap operator, the state mutation of
each action immediately precedes its emission on the change stream, every
mutation is followed by the emission of the very action that caused it, and
the mutations performed are exactly those of the committed action list. -/
theorem mutation_precedes_emission {T : Type} (gid : T → String)
    (acts : List (ConfigSetAction T)) (s : St T) (pre post : List (TapOp T))
    (a : ConfigSetAction T) :
    runTrace gid s (tapTrace acts) = applyActions gid s acts ∧
    (tapTrace acts = pre ++ TapOp.emit a :: post →
      pre.getLast? = some (TapOp.mutate a)) ∧
    (tapTrace acts = pre ++ TapOp.mutate a :: post →
      post.head? = some (TapOp.emit a)) :=
  ⟨runTrace_tapTrace gid acts s,
    tapTrace_emit_decomp acts pre post a,
    tapTrace_mutate_decomp acts pre post a⟩

/-- Closed instance of the C8 theorem on a one-action commit. -/
theorem mutation_precedes_emission_witness :
    runTrace (fun _ : Nat => "i") [] (tapTrace [ConfigSetAction.remove "r"]) =
      applyActions (fun _ : Nat => "i") [] [ConfigSetAction.remove "r"] ∧
    [TapOp.mutate (ConfigSetAction.remove (T := Nat) "r")].getLast? =
      some (TapOp.mutate (ConfigSetAction.remove "r")) :=
  ⟨(mutation_precedes_emission (fun _ : Nat => "i") [ConfigSetAction.remove "r"] []
      [TapOp.mutate (ConfigSetAction.remove "r")] [] (ConfigSetAction.remove "r")).1,
    (mutation_precedes_emission (fun _ : Nat => "i") [ConfigSetAction.remove "r"] []
      [TapOp.mutate (ConfigSetAction.remove "r")] [] (ConfigSetAction.remove "r")).2.1
      (by decide)⟩

/-- C9 evaluated at the failing input: the ConfigMap driver tracks file
a.yaml with content x, a MODIFIED snapshot then arrives with its data
section emptied out (or removed); the handler emits no change notification
and leaves the file store untouched, although the claim requires one remove
notification for a.yaml. -/
theorem configmap_empty_snapshot_no_removes :
    onAddedModified [("a.yaml", "x")] (some []) none (fun c => c) =
      ([], [("a.yaml", "x")]) ∧
    onAddedModified [("a.yaml", "x")] none none (fun c => c) =
      ([], [("a.yaml", "x")]) :=
  ⟨rfl, rfl⟩

/-- C10: removeSet of a falsy (empty) id returns undefined leaving State
unchanged, removeSet of an untracked id returns undefined leaving State
unchanged, and addOrUpdateSet of a null ConfigSet returns null leaving State
unchanged. -/
theorem state_interface_guards {T : Type} (gid : T → String) (s : St T) (id : String) :
    removeSet "" s = (none, s) ∧
    (alookup s id = none → removeSet id s = (none, s)) ∧
    addOrUpdateSet gid none s = (none, s) := by
  refine ⟨by simp [removeSet], ?_, rfl⟩
  intro h
  by_cases hid : id = ""
  · simp [removeSet, hid]
  · simp [removeSet, hid, h]

/-- Closed instance of the C10 theorem on the empty state. -/
theorem state_interface_guards_witness :
    alookup ([] : St Nat) "z" = none ∧
    removeSet "" ([] : St Nat) = (none, []) ∧
    removeSet "z" ([] : St Nat) = (none, []) ∧
    addOrUpdateSet (fun _ : Nat => "i") none ([] : St Nat) = (none, []) :=
  ⟨rfl, (state_interface_guards (fun _ : Nat => "i") [] "z").1,
    (state_interface_guards (fun _ : Nat => "i") [] "z").2.1 rfl,
    (state_interface_guards (fun _ : Nat => "i") [] "z").2.2⟩

end CW
